import Mathlib

/-
Verification of the core contracts of a CLI LLM client.

The repository's core consists of three parts:
  * `remove_pref` (src/llm/utils.py): a streaming prefill reconciler that merges a
    caller-supplied prefill string into a chunked stream of model output;
  * `Template.evaluate` / `Template.interpolate` / `Template.extract_vars`
    (src/llm/templates.py): template variable interpolation built on Python's
    `string.Template`;
  * `get_history` and the message-list reconstruction loop of `prompt`
    (src/llm/cli.py): replay of stored conversation rows in ascending id order.

Python strings are modelled as `List Char` (a Python `str` is a sequence of code
points, and all slicing/length operations in the source are code-point based).
Python generators are modelled by the finite list of items they yield when fully
consumed; the mutable `store` list threaded through `remove_pref` is modelled by
explicit state passing.
-/

/-- A Python `str` value: a sequence of code points. -/
abbrev Str := List Char

namespace LLM

/-! ### Prefill reconciler, from src/llm/utils.py lines 111-144

`remove_pref(p, r, store=None, preproc=None)` iterates over `r`, accumulating
chunk text into `buffer` until either `buffer.startswith(p)` (match: the prefill
prefix is removed and `has_pre` set) or `not p.startswith(buffer[:len(p)+1])`
(definite non-match) or the source is exhausted.  It then yields `p`, a single
space when `not has_pre and not re.search(r'\s$', p)`, the buffer, and every
remaining chunk unchanged.  Each consumed chunk is appended to `store` (when
supplied) before the optional `preproc` decode step.

Chunks are modelled as `Str ⊕ α`: `Sum.inl s` is a chunk that is already text
(Python `isinstance(x, str)`), `Sum.inr a` is a raw chunk that `preproc`
(modelled by `pr : α → Str`) decodes to text. -/

/-- Text of a chunk: a `str` chunk is used as-is, a raw chunk is decoded by
`pr` (the `preproc` argument of `remove_pref`). -/
def toText (pr : α → Str) : Str ⊕ α → Str
  | .inl s => s
  | .inr a => pr a

/-- The accumulation loop of `remove_pref` (the first `for x in ir` loop):
returns the final buffer, the `has_pre` flag, the chunks left unconsumed in the
iterator, and the state of `store` after the loop. -/
def removePrefLoop (p : Str) (pr : α → Str) :
    List (Str ⊕ α) → Str → List (Str ⊕ α) →
    Str × Bool × List (Str ⊕ α) × List (Str ⊕ α)
  | [], buffer, store => (buffer, false, [], store)
  | x :: rest, buffer, store =>
    let buffer' := buffer ++ toText pr x
    if p.isPrefixOf buffer' then
      (buffer'.drop p.length, true, rest, store ++ [x])
    else if ((buffer'.take (p.length + 1)).isPrefixOf p) = false then
      (buffer', false, rest, store ++ [x])
    else
      removePrefLoop p pr rest buffer' (store ++ [x])

/-- Python's `re.search(r'\s$', p)` on the ASCII range: the regex class `\s` is
space, tab, newline, carriage return, vertical tab and form feed.  (Python's
`\s` additionally matches some non-ASCII Unicode whitespace; every claim and
every string in this repository is ASCII, and the embedding uses this predicate
uniformly on both sides of each statement.) -/
def pyWs (c : Char) : Bool :=
  c == ' ' || c == '\t' || c == '\n' || c == '\r' || c == '\x0b' || c == '\x0c'

/-- Whether `re.search(r'\s$', p)` finds a match: `$` matches at the end of the
string or before a trailing newline, so this holds exactly when the last
character of `p` is whitespace (a trailing newline is itself whitespace). -/
def endsWs (p : Str) : Bool :=
  match p.getLast? with
  | some c => pyWs c
  | none => false

/-- `remove_pref(p, r, store, preproc)`, fully consumed: returns the list of
yielded segments and the final contents of `store`.  After the accumulation
loop it yields `p`, then a single space when `not has_pre` and `p` does not end
in whitespace, then the buffer, then every remaining chunk (recorded into
`store` and decoded) unchanged. -/
def remove_pref (p : Str) (pr : α → Str) (r : List (Str ⊕ α))
    (store : List (Str ⊕ α)) : List Str × List (Str ⊕ α) :=
  let res := removePrefLoop p pr r [] store
  ([p] ++ (if !res.2.1 && !endsWs p then [[' ']] else [])
      ++ [res.1] ++ res.2.2.1.map (toText pr),
   res.2.2.2 ++ res.2.2.1)

/-- The `has_pre` flag computed by the accumulation loop: whether the prefill
was judged already present in the stream. -/
def hasPre (p : Str) (pr : α → Str) (r : List (Str ⊕ α)) : Bool :=
  (removePrefLoop p pr r [] []).2.1

/-- The concatenated text of a chunk sequence (`''.flatten` of the decoded chunks). -/
def chunksText (pr : α → Str) (r : List (Str ⊕ α)) : Str :=
  (r.map (toText pr)).flatten

/-- A trivial decode function for streams whose chunks are all text. -/
def prUnit : Unit → Str := fun _ => []

/-! ### Template interpolation, from src/llm/templates.py

`Template.evaluate(input, params)` builds the effective parameter dict by
writing `input` under the key `"input"` into the caller's dict (`params =
params or \x7b\x7d` keeps the caller's own dict object whenever it is non-empty, so
this is an in-place mutation observable by the caller) and filling in absent
default keys, then interpolates the prompt pattern (unless it is falsy, in
which case the raw input is the prompt) and the system pattern with Python's
`string.Template`.  `interpolate` first collects, via `extract_vars`, the
`named` group of every match of `string.Template.pattern` and raises
`MissingVariables` when any collected name is absent from the params -- but
`extract_vars` yields `None` for a match whose `named` group did not
participate (an escaped `$$`, a braced placeholder or a lone `$`), and
formatting the error message then raises `TypeError` inside `str.join`.

A Python dict with string keys is modelled as an insertion-ordered association
list without duplicate keys, written to only through `dictSet`. -/

/-- A Python dict with `str` keys and values, in insertion order. -/
abbrev Dict := List (Str × Str)

/-- Python `k in d`. -/
def dictContains (d : Dict) (k : Str) : Bool :=
  d.any fun kv => kv.1 == k

/-- Python `d[k]` as an optional lookup (`none` models `KeyError`). -/
def dictFind (d : Dict) (k : Str) : Option Str :=
  (d.find? fun kv => kv.1 == k).map fun kv => kv.2

/-- Python `d[k] = v`: updates the value in place when the key exists,
otherwise appends the new binding at the end (insertion order). -/
def dictSet (d : Dict) (k : Str) (v : Str) : Dict :=
  if dictContains d k then
    d.map fun kv => if kv.1 == k then (kv.1, v) else kv
  else
    d ++ [(k, v)]

/-- The exceptions the template code can raise.  `missingVariables` carries
the formatted message; `typeError` is the `TypeError` raised by
`", ".join(missing)` when `missing` contains `None`; `keyError` and
`valueError` are the exceptions `string.Template.substitute` raises for an
unbound variable and for an invalid lone `$`. -/
inductive PyError where
  | missingVariables (msg : Str)
  | typeError
  | keyError
  | valueError
deriving DecidableEq

deriving instance DecidableEq for Except

/-- One match (or literal character) of `string.Template.pattern`:
`\$(?:(?P<escaped>\$)|(?P<named>ident)|\x7b(?P<braced>ident)\x7d|(?P<invalid>))`
with `ident = [_a-z][_a-z0-9]*` under `IGNORECASE`.  `lit c` is a character
not covered by any match; `invalid` is a `$` starting no valid placeholder
(the `invalid` group matches the empty string, so the match consumes only the
`$`). -/
inductive Tok where
  | lit (c : Char)
  | escaped
  | named (n : Str)
  | braced (n : Str)
  | invalid
deriving DecidableEq

/-- First character of an identifier: `[_a-zA-Z]` (the pattern is compiled
with `IGNORECASE`). -/
def identStart (c : Char) : Bool :=
  c == '_' || (decide ( 'a' ≤ c) && decide (c ≤ 'z'))
    || (decide ( 'A' ≤ c) && decide (c ≤ 'Z'))

/-- Subsequent character of an identifier: `[_a-zA-Z0-9]`. -/
def identCont (c : Char) : Bool :=
  identStart c || (decide ( '0' ≤ c) && decide (c ≤ '9'))

/-- State of the scanner between characters: outside any candidate match, just
after an unmatched `$`, inside a `$name` placeholder, just after `$\x7b`, or
inside the identifier of a `$\x7bname\x7d` placeholder. -/
inductive ScanMode where
  | plain
  | dollar
  | named (acc : Str)
  | bracedStart
  | braced (acc : Str)

/-- One pass of `string.Template.pattern.finditer` over the text, producing
matches interleaved with the uncovered literal characters.  A failed braced
candidate backtracks exactly as the regex does: the `$` becomes an `invalid`
match (the `invalid` group matches the empty string) and scanning resumes at
the following `\x7b`, which together with any identifier characters read so far
is literal text (none of those characters can be `$`, so no match is lost). -/
def scan : ScanMode → Str → List Tok
  | .plain, [] => []
  | .plain, c :: rest =>
    if c == '$' then scan .dollar rest
    else .lit c :: scan .plain rest
  | .dollar, [] => [.invalid]
  | .dollar, c :: rest =>
    if c == '$' then .escaped :: scan .plain rest
    else if c == '\x7b' then scan .bracedStart rest
    else if identStart c then scan (.named [c]) rest
    else .invalid :: .lit c :: scan .plain rest
  | .named acc, [] => [.named acc]
  | .named acc, c :: rest =>
    if identCont c then scan (.named (acc ++ [c])) rest
    else if c == '$' then .named acc :: scan .dollar rest
    else .named acc :: .lit c :: scan .plain rest
  | .bracedStart, [] => [.invalid, .lit '\x7b']
  | .bracedStart, c :: rest =>
    if identStart c then scan (.braced [c]) rest
    else if c == '$' then .invalid :: .lit '\x7b' :: scan .dollar rest
    else .invalid :: .lit '\x7b' :: .lit c :: scan .plain rest
  | .braced acc, [] => .invalid :: .lit '\x7b' :: acc.map .lit
  | .braced acc, c :: rest =>
    if identCont c then scan (.braced (acc ++ [c])) rest
    else if c == '\x7d' then .braced acc :: scan .plain rest
    else if c == '$' then .invalid :: .lit '\x7b' :: (acc.map .lit ++ scan .dollar rest)
    else .invalid :: .lit '\x7b' :: (acc.map .lit ++ (.lit c :: scan .plain rest))

/-- All matches and literal characters of `string.Template.pattern` in a text. -/
def tokenize (s : Str) : List Tok :=
  scan .plain s

/-- `Template.extract_vars`: the `named` group of every match of the pattern
in order (`None`, i.e. `none`, when the match was an escaped `$$`, a braced
placeholder or an invalid lone `$`).  Literal characters are not matches. -/
def extract_vars (s : Str) : List (Option Str) :=
  (tokenize s).filterMap fun t =>
    match t with
    | .lit _ => none
    | .named n => some (some n)
    | .escaped => some none
    | .braced _ => some none
    | .invalid => some none

/-- `string.Template.substitute`: every match is replaced (`$$` by `$`, a
named or braced placeholder by its value, raising `KeyError` when unbound) and
an invalid `$` raises `ValueError`. -/
def substitute (toks : List Tok) (d : Dict) : Except PyError Str :=
  match toks with
  | [] => .ok []
  | t :: ts =>
    let piece : Except PyError Str :=
      match t with
      | .lit c => .ok [c]
      | .escaped => .ok [ '$']
      | .named n =>
        match dictFind d n with
        | some v => .ok v
        | none => .error .keyError
      | .braced n =>
        match dictFind d n with
        | some v => .ok v
        | none => .error .keyError
      | .invalid => .error .valueError
    match piece with
    | .error e => .error e
    | .ok sp =>
      match substitute ts d with
      | .error e => .error e
      | .ok r => .ok (sp ++ r)

/-- The predicate of `[p for p in vars if p not in params]`: a `None` entry is
never a dict key, so it always counts as missing. -/
def missingPred (d : Dict) : Option Str → Bool
  | some n => ! dictContains d n
  | none => true

/-- The message `"Missing variables: " + ", ".join(names)`. -/
def fmtMissing (names : List Str) : Str :=
  "Missing variables: ".data ++ List.intercalate ", ".data names

/-- `Template.interpolate(text, params)`: falsy text is returned unchanged;
otherwise every variable reference is collected, the missing ones are computed,
and either `MissingVariables` is raised (a `TypeError` first, from
`", ".join`, when a `None` sits among the missing entries) or the text is
substituted. -/
def interpolate (text : Option Str) (params : Dict) : Except PyError (Option Str) :=
  match text with
  | none => .ok none
  | some s =>
    if s.isEmpty then .ok (some s)
    else
      let missing := (extract_vars s).filter (missingPred params)
      if missing.isEmpty then
        match substitute (tokenize s) params with
        | .error e => .error e
        | .ok out => .ok (some out)
      else if missing.any fun o => o.isNone then .error .typeError
      else .error (.missingVariables (fmtMissing (missing.filterMap id)))

/-- The `Template` model of src/llm/templates.py.  Default values are strings
(the claims only exercise string values); the `options` field and
`evaluate_options` are outside every claim and are omitted. -/
structure Template where
  name : Str
  prompt : Option Str := none
  system : Option Str := none
  model : Option Str := none
  defaults : Option Dict := none
deriving DecidableEq

/-- Python truthiness of an optional string: `None` and `""` are falsy. -/
def truthyStr : Option Str → Bool
  | some s => ! s.isEmpty
  | none => false

namespace Template

/-- The effective parameter dict built by the first lines of
`Template.evaluate`: start from the caller's params (an empty or absent dict
is replaced by a fresh one, a non-empty dict is kept -- and mutated in
place), write `input` under `"input"`, then fill in each defaults key not
already present.  This value is the final state of the caller's dict whenever
the caller passed a non-empty dict. -/
def effectiveParams (t : Template) (input : Str) (params : Option Dict) : Dict :=
  let ps0 := match params with
    | none => []
    | some l => l
  let ps1 := dictSet ps0 "input".data input
  match t.defaults with
  | none => ps1
  | some ds =>
    if ds.isEmpty then ps1
    else ds.foldl (fun acc kv =>
      if dictContains acc kv.1 then acc else dictSet acc kv.1 kv.2) ps1

/-- `Template.evaluate(input, params)`: returns the `(prompt, system)` result
(or the exception raised) together with the final state of the parameter
dict.  A falsy prompt pattern makes the raw input the prompt and interpolates
only the system pattern; otherwise the prompt pattern is interpolated first,
then the system pattern. -/
def evaluate (t : Template) (input : Str) (params : Option Dict) :
    Except PyError (Option Str × Option Str) × Dict :=
  let ps := t.effectiveParams input params
  if truthyStr t.prompt = false then
    match interpolate t.system ps with
    | .error e => (.error e, ps)
    | .ok sys => (.ok (some input, sys), ps)
  else
    match interpolate t.prompt ps with
    | .error e => (.error e, ps)
    | .ok pro =>
      match interpolate t.system ps with
      | .error e => (.error e, ps)
      | .ok sys => (.ok (pro, sys), ps)

end Template

/-! ### Specification-side definitions for the template claims -/

/-- Whether a token is a literal character or a simple `$name` placeholder
(the only match shapes whose `named` group participates). -/
def tokSimple : Tok → Bool
  | Tok.lit _ => true
  | Tok.named _ => true
  | _ => false

/-- Whether every match in the text is a simple `$name` placeholder. -/
def allNamed (s : Str) : Bool :=
  (tokenize s).all tokSimple

/-- `allNamed` lifted to an optional pattern (an absent pattern is trivially
simple). -/
def patternAllNamed : Option Str → Bool
  | none => true
  | some s => allNamed s

/-- The names of the missing referenced variables of a pattern text, in
occurrence order with repetition (the entries of the code's `missing` list,
with the `None` sentinels dropped). -/
def missingNames (s : Str) (d : Dict) : List Str :=
  ((extract_vars s).filter (missingPred d)).filterMap id

/-- `missingNames` lifted to an optional pattern; a falsy pattern is never
scanned by `interpolate`. -/
def missingNamesOf (o : Option Str) (d : Dict) : List Str :=
  match o with
  | none => []
  | some s => if s.isEmpty then [] else missingNames s d

/-- Specification-side characterization of which missing-variable list
`Template.evaluate` reports: the prompt pattern's list when the prompt is
truthy and has missing variables, otherwise the system pattern's list (the
code interpolates the prompt first and raises per pattern). -/
def expectedMissing (t : Template) (input : Str) (params : Option Dict) : List Str :=
  let d := t.effectiveParams input params
  if truthyStr t.prompt = false then missingNamesOf t.system d
  else if missingNamesOf t.prompt d = [] then missingNamesOf t.system d
  else missingNamesOf t.prompt d

/-- A template with one undeclared variable in each pattern, used to observe
that the missing-variable error of the prompt pattern does not mention the
system pattern's missing variable. -/
def tCross : Template :=
  ⟨"t".data, some "$a".data, some "$q".data, none, none⟩

/-- A template with a plain prompt, used to observe the mutation of the
caller's params dict. -/
def tMut : Template :=
  ⟨"t".data, some "p".data, none, none, none⟩

/-! ### Conversation history replay, from src/llm/cli.py

`get_history(chat_id)` runs `db["log"].rows_where("id = ? or chat_id = ?",
[chat_id, chat_id], order_by="id")` (lines 410-413): the rows of the log table
whose `id` or `chat_id` equals the conversation identifier, in ascending `id`
order.  The SQL `ORDER BY id` of the collaborator is modelled by sorting the
matching rows by `id`; `id` is the SQLite rowid primary key, so distinct rows
have distinct ids.  The `prompt` command (lines 87-93) then appends, for each
history entry in iteration order, an optional system message (only when the
stored `system` is truthy) and the user/assistant pair. -/

/-- A row of the `log` table, with the fields the replay reads. -/
structure LogRow where
  id : Nat
  chat_id : Option Nat
  system : Option Str
  prompt : Str
  response : Str
  model : Str
deriving DecidableEq

/-- The WHERE clause `id = ? or chat_id = ?`. -/
def rowMatches (cid : Nat) (r : LogRow) : Bool :=
  (r.id == cid) || (r.chat_id == some cid)

/-- The comparison of the `ORDER BY id` clause. -/
def histLe (a b : LogRow) : Prop :=
  a.id ≤ b.id

instance : DecidableRel histLe := fun a b => Nat.decLe a.id b.id

/-- `get_history(chat_id)` for a concrete chat id: the matching rows of the
table in ascending id order. -/
def get_history (table : List LogRow) (cid : Nat) : List LogRow :=
  List.insertionSort histLe (table.filter (rowMatches cid))

/-- The roles of the chat messages the replay builds. -/
inductive Role where
  | system
  | user
  | assistant
deriving DecidableEq

/-- A chat message: a role and a content string. -/
abbrev Message := Role × Str

/-- The messages one history entry contributes: a system message when
`entry.get("system")` is truthy, then the user prompt and the assistant
response. -/
def entryMessages (e : LogRow) : List Message :=
  (match e.system with
   | some s => if s.isEmpty then [] else [(Role.system, s)]
   | none => []) ++ [(Role.user, e.prompt), (Role.assistant, e.response)]

/-- The `for entry in history` loop of `prompt`: each entry appends its
messages to the accumulating list. -/
def buildMessages (history : List LogRow) : List Message :=
  history.foldl (fun msgs e => msgs ++ entryMessages e) []

/-- A small log table: the first turn of chat 1 (row 1, with a system
prompt), a follow-up turn (row 2, grouped by `chat_id`), and a row of an
unrelated chat. -/
def tableW : List LogRow :=
  [⟨2, some 1, none, "q2".data, "r2".data, "m".data⟩,
   ⟨1, none, some "sys".data, "q1".data, "r1".data, "m".data⟩,
   ⟨3, some 9, none, "x".data, "y".data, "m".data⟩]

/-! ### Basic lemmas about the reconciler loop -/

lemma isPrefixOf_iff_exists :
    ∀ (l₁ l₂ : Str), l₁.isPrefixOf l₂ = true ↔ ∃ t, l₁ ++ t = l₂
  | [], l₂ => by simp [List.isPrefixOf]
  | a :: as, [] => by simp [List.isPrefixOf]
  | a :: as, b :: bs => by
    simp [List.isPrefixOf, Bool.and_eq_true, beq_iff_eq,
      isPrefixOf_iff_exists as bs, List.cons_eq_cons]

/-- Unfolding equation for the loop when the buffer now starts with the prefill. -/
lemma removePrefLoop_match (p : Str) (pr : α → Str) (x : Str ⊕ α)
    (rest : List (Str ⊕ α)) (buf : Str) (st : List (Str ⊕ α))
    (h1 : p.isPrefixOf (buf ++ toText pr x) = true) :
    removePrefLoop p pr (x :: rest) buf st
      = ((buf ++ toText pr x).drop p.length, true, rest, st ++ [x]) := by
  simp [removePrefLoop, h1]

lemma removePrefLoop_nonmatch (p : Str) (pr : α → Str) (x : Str ⊕ α)
    (rest : List (Str ⊕ α)) (buf : Str) (st : List (Str ⊕ α))
    (h1 : p.isPrefixOf (buf ++ toText pr x) = false)
    (h2 : ((buf ++ toText pr x).take (p.length + 1)).isPrefixOf p = false) :
    removePrefLoop p pr (x :: rest) buf st = (buf ++ toText pr x, false, rest, st ++ [x]) := by
  simp [removePrefLoop, h1, h2]

lemma removePrefLoop_undecided (p : Str) (pr : α → Str) (x : Str ⊕ α)
    (rest : List (Str ⊕ α)) (buf : Str) (st : List (Str ⊕ α))
    (h1 : p.isPrefixOf (buf ++ toText pr x) = false)
    (h2 : ((buf ++ toText pr x).take (p.length + 1)).isPrefixOf p = true) :
    removePrefLoop p pr (x :: rest) buf st
      = removePrefLoop p pr rest (buf ++ toText pr x) (st ++ [x]) := by
  simp [removePrefLoop, h1, h2]

/-- The loop invariant: re-attaching the removed prefill (when `has_pre`) to the
final buffer and appending the text of the unconsumed chunks recovers the text
of all chunks, and the store receives exactly the consumed chunks in order. -/
lemma removePrefLoop_spec (p : Str) (pr : α → Str) :
    ∀ (cs : List (Str ⊕ α)) (buf : Str) (st : List (Str ⊕ α)),
      ((if (removePrefLoop p pr cs buf st).2.1 then
          p ++ (removePrefLoop p pr cs buf st).1
        else (removePrefLoop p pr cs buf st).1)
          ++ ((removePrefLoop p pr cs buf st).2.2.1.map (toText pr)).flatten
        = buf ++ (cs.map (toText pr)).flatten)
      ∧ (removePrefLoop p pr cs buf st).2.2.2 ++ (removePrefLoop p pr cs buf st).2.2.1
          = st ++ cs := by
  intro cs
  induction cs with
  | nil => intro buf st; simp [removePrefLoop]
  | cons x rest ih =>
    intro buf st
    by_cases h1 : p.isPrefixOf (buf ++ toText pr x) = true
    · obtain ⟨t, ht⟩ := (isPrefixOf_iff_exists _ _).mp h1
      have hdrop : (buf ++ toText pr x).drop p.length = t := by
        rw [← ht, List.drop_left]
      rw [removePrefLoop_match p pr x rest buf st h1]
      refine ⟨?_, by simp⟩
      simp only [hdrop, List.map_cons, List.flatten_cons, ← List.append_assoc, ht]
      simp
    · have h1' : p.isPrefixOf (buf ++ toText pr x) = false := by
        revert h1; cases p.isPrefixOf (buf ++ toText pr x) <;> simp
      by_cases h2 : ((buf ++ toText pr x).take (p.length + 1)).isPrefixOf p = false
      · rw [removePrefLoop_nonmatch p pr x rest buf st h1' h2]
        constructor
        · simp [List.append_assoc]
        · simp
      · have h2' : ((buf ++ toText pr x).take (p.length + 1)).isPrefixOf p = true := by
          revert h2; cases ((buf ++ toText pr x).take (p.length + 1)).isPrefixOf p <;> simp
        rw [removePrefLoop_undecided p pr x rest buf st h1' h2']
        have := ih (buf ++ toText pr x) (st ++ [x])
        refine ⟨?_, ?_⟩
        · rw [this.1]; simp [List.append_assoc]
        · rw [this.2]; simp

/-- The `store` argument does not influence the buffer, the flag or the
unconsumed remainder computed by the loop. -/
lemma removePrefLoop_store_irrel (p : Str) (pr : α → Str) :
    ∀ (cs : List (Str ⊕ α)) (buf : Str) (st : List (Str ⊕ α)),
      (removePrefLoop p pr cs buf st).1 = (removePrefLoop p pr cs buf []).1
      ∧ (removePrefLoop p pr cs buf st).2.1 = (removePrefLoop p pr cs buf []).2.1
      ∧ (removePrefLoop p pr cs buf st).2.2.1 = (removePrefLoop p pr cs buf []).2.2.1 := by
  intro cs
  induction cs with
  | nil => intro buf st; simp [removePrefLoop]
  | cons x rest ih =>
    intro buf st
    by_cases h1 : p.isPrefixOf (buf ++ toText pr x) = true
    · rw [removePrefLoop_match p pr x rest buf st h1,
        removePrefLoop_match p pr x rest buf [] h1]
      exact ⟨rfl, rfl, rfl⟩
    · have h1' : p.isPrefixOf (buf ++ toText pr x) = false := by
        revert h1; cases p.isPrefixOf (buf ++ toText pr x) <;> simp
      by_cases h2 : ((buf ++ toText pr x).take (p.length + 1)).isPrefixOf p = false
      · rw [removePrefLoop_nonmatch p pr x rest buf st h1' h2,
          removePrefLoop_nonmatch p pr x rest buf [] h1' h2]
        exact ⟨rfl, rfl, rfl⟩
      · have h2' : ((buf ++ toText pr x).take (p.length + 1)).isPrefixOf p = true := by
          revert h2; cases ((buf ++ toText pr x).take (p.length + 1)).isPrefixOf p <;> simp
        rw [removePrefLoop_undecided p pr x rest buf st h1' h2',
          removePrefLoop_undecided p pr x rest buf [] h1' h2']
        exact ⟨((ih _ (st ++ [x])).1).trans ((ih _ ([] ++ [x])).1).symm,
          ((ih _ (st ++ [x])).2.1).trans ((ih _ ([] ++ [x])).2.1).symm,
          ((ih _ (st ++ [x])).2.2).trans ((ih _ ([] ++ [x])).2.2).symm⟩

/-! ### Claim theorems about the reconciler -/

/-- C1: for every prefill `p` and every finite chunk sequence, the segments
produced by `remove_pref` concatenate to `p`, followed by a single space
exactly when the prefill was judged not present (`hasPre = false`) and `p`
does not end in whitespace, followed by the concatenated chunk text with the
prefix matching `p` removed at most once (exactly once when judged present,
never otherwise); when judged present, `p` really is a prefix of the chunk
text. -/
theorem remove_pref_concat (pr : α → Str) (p : Str) (cs st : List (Str ⊕ α)) :
    (remove_pref p pr cs st).1.flatten
      = p ++ (if hasPre p pr cs = false ∧ endsWs p = false then [' '] else [])
          ++ (if hasPre p pr cs = true then (chunksText pr cs).drop p.length
              else chunksText pr cs)
    ∧ (hasPre p pr cs = true → p.isPrefixOf (chunksText pr cs) = true) := by
  have hspec := (removePrefLoop_spec p pr cs [] st).1
  have hflag : (removePrefLoop p pr cs [] st).2.1 = hasPre p pr cs :=
    (removePrefLoop_store_irrel p pr cs [] st).2.1
  rw [hflag] at hspec
  simp only [List.nil_append] at hspec
  cases hh : hasPre p pr cs with
  | true =>
    rw [hh] at hspec
    simp only [eq_self_iff_true, if_true, List.append_assoc] at hspec
    have hdrop : ((cs.map (toText pr)).flatten).drop p.length
        = (removePrefLoop p pr cs [] st).1
          ++ ((removePrefLoop p pr cs [] st).2.2.1.map (toText pr)).flatten := by
      rw [← hspec, List.drop_left]
    constructor
    · simp only [remove_pref, chunksText, hflag, hh, hdrop]
      simp
    · intro _
      exact (isPrefixOf_iff_exists _ _).mpr
        ⟨(removePrefLoop p pr cs [] st).1
          ++ ((removePrefLoop p pr cs [] st).2.2.1.map (toText pr)).flatten,
         by rw [chunksText, ← hspec]⟩
  | false =>
    rw [hh] at hspec
    simp only [Bool.false_eq_true, if_false, List.append_assoc] at hspec
    constructor
    · simp only [remove_pref, chunksText, hflag, hh]
      cases he : endsWs p with
      | true => simp [he, ← hspec]
      | false => simp [he, ← hspec]
    · intro hcontra
      exact (Bool.false_ne_true hcontra).elim

theorem remove_pref_concat_witness :
    "ab".data.isPrefixOf (chunksText prUnit [Sum.inl "abcd".data]) = true :=
  (remove_pref_concat prUnit "ab".data [Sum.inl "abcd".data] []).2 (by decide)

/-- C7: after the output of `remove_pref` is fully consumed, the supplied store
contains exactly the original chunks (before any decode step), in their
original order, appended after its prior contents, regardless of the match
outcome. -/
theorem remove_pref_store_exact (pr : α → Str) (p : Str) (cs st : List (Str ⊕ α)) :
    (remove_pref p pr cs st).2 = st ++ cs :=
  (removePrefLoop_spec p pr cs [] st).2

/-- C2 counterexample: for prefill `"The answer is"` and the single chunk
`" 42."`, the chunk does not start with the prefill, so the reconciler takes
the non-match path and inserts a forced space: the segments concatenate to
`"The answer is  42."` (two spaces), not to `"The answer is 42."` as the
claim states. -/
theorem remove_pref_scenarioA_counterexample :
    (remove_pref "The answer is".data prUnit [Sum.inl " 42.".data] []).1.flatten
        = "The answer is  42.".data
    ∧ (remove_pref "The answer is".data prUnit [Sum.inl " 42.".data] []).1.flatten
        ≠ "The answer is 42.".data := by decide

/-- C2 amended: for prefill `"The answer is"` and the single chunk `" 42."`,
no match is found (`" 42."` does not begin with the prefill), so the segments
are the prefill, a forced single space, and the chunk unchanged, concatenating
to `"The answer is  42."` with two spaces. -/
theorem remove_pref_scenarioA :
    hasPre "The answer is".data prUnit [Sum.inl " 42.".data] = false
    ∧ (remove_pref "The answer is".data prUnit [Sum.inl " 42.".data] []).1
        = ["The answer is".data, [' '], " 42.".data] := by decide

/-- C5: when the match outcome is "not present", the reconciler emits a single
space as the second segment exactly when the prefill's last character is not
whitespace; in particular for prefill `"Hello"` and single chunk
`"Goodbye world"` the segments concatenate to `"Hello Goodbye world"`. -/
theorem remove_pref_not_present (pr : α → Str) (p : Str) (cs st : List (Str ⊕ α))
    (h : hasPre p pr cs = false) :
    ((remove_pref p pr cs st).1
        = [p] ++ (if endsWs p = false then [[' ']] else [])
            ++ [(removePrefLoop p pr cs [] st).1]
            ++ ((removePrefLoop p pr cs [] st).2.2.1.map (toText pr)))
    ∧ (remove_pref "Hello".data prUnit [Sum.inl "Goodbye world".data] []).1.flatten
        = "Hello Goodbye world".data := by
  constructor
  · have hflag : (removePrefLoop p pr cs [] st).2.1 = false :=
      (removePrefLoop_store_irrel p pr cs [] st).2.1.trans h
    simp only [remove_pref, hflag]
    cases he : endsWs p <;> simp
  · decide

theorem remove_pref_not_present_witness :
    (remove_pref "Hello".data prUnit [Sum.inl "Goodbye world".data] []).1.flatten
      = "Hello Goodbye world".data :=
  (remove_pref_not_present prUnit "Hello".data [Sum.inl "Goodbye world".data] []
    (by decide)).2

/-- C6: for prefill `"abcdef"` and chunks `["abc", "def", "ghi"]` the prefill
spans the first chunk boundary exactly: after the first chunk alone the loop is
still undecided (exhaustion gives `has_pre = false`), the full match is
confirmed at the second chunk (leaving `"ghi"` unconsumed), and the segments
concatenate to exactly `"abcdefghi"` with the matched `"abcdef"` appearing
once. -/
theorem remove_pref_boundary_scenario :
    (remove_pref "abcdef".data prUnit
        [Sum.inl "abc".data, Sum.inl "def".data, Sum.inl "ghi".data] []).1.flatten
      = "abcdefghi".data
    ∧ hasPre "abcdef".data prUnit [Sum.inl "abc".data] = false
    ∧ removePrefLoop "abcdef".data prUnit
        [Sum.inl "abc".data, Sum.inl "def".data, Sum.inl "ghi".data] [] []
      = ([], true, [Sum.inl "ghi".data], [Sum.inl "abc".data, Sum.inl "def".data]) := by
  refine ⟨by decide, by decide, by decide⟩

/-- C9: for the empty prefill, a non-empty chunk sequence is passed through
unchanged (the match is confirmed on the very first chunk and no space is
inserted), while the empty chunk sequence yields segments concatenating to a
single space (the empty prefill is judged not present and does not end in
whitespace). -/
theorem remove_pref_empty_prefill (pr : α → Str) :
    (∀ cs : List (Str ⊕ α), cs ≠ [] →
        (remove_pref ([] : Str) pr cs []).1.flatten = chunksText pr cs)
    ∧ (remove_pref ([] : Str) pr ([] : List (Str ⊕ α)) []).1.flatten = [' ']
    ∧ ∀ (c : Str ⊕ α) (cs' : List (Str ⊕ α)),
        removePrefLoop ([] : Str) pr (c :: cs') [] [] = (toText pr c, true, cs', [c]) := by
  have hloop : ∀ (c : Str ⊕ α) (cs' : List (Str ⊕ α)),
      removePrefLoop ([] : Str) pr (c :: cs') [] [] = (toText pr c, true, cs', [c]) := by
    intro c cs'
    have h1 : List.isPrefixOf ([] : Str) ([] ++ toText pr c) = true := by
      simp [List.isPrefixOf]
    rw [removePrefLoop_match ([] : Str) pr c cs' [] [] h1]
    simp
  refine ⟨?_, by simp [remove_pref, removePrefLoop, endsWs, pyWs], hloop⟩
  intro cs hcs
  cases cs with
  | nil => exact absurd rfl hcs
  | cons c cs' =>
    simp only [remove_pref, hloop c cs']
    simp [chunksText]

theorem remove_pref_empty_prefill_witness :
    (remove_pref ([] : Str) prUnit [Sum.inl "hi".data] []).1.flatten
      = chunksText prUnit [Sum.inl "hi".data] :=
  (remove_pref_empty_prefill prUnit).1 [Sum.inl "hi".data] (by decide)









/-! ### Lemmas about the dict model -/

lemma dictSet_key_stable (k v : Str) (kv : Str × Str) :
    (if (kv.1 == k) = true then (kv.1, v) else kv).1 = kv.1 := by
  split <;> rfl

lemma bool_eq_false_of_ne_true {b : Bool} (h : ¬ b = true) : b = false := by
  revert h; cases b <;> simp

lemma find?_key_cons_pos (k' : Str) (kv : Str × Str) (l : List (Str × Str))
    (h : (kv.1 == k') = true) :
    ((kv :: l).find? fun x => x.1 == k') = some kv := by
  simp only [List.find?]
  rw [h]

lemma find?_key_cons_neg (k' : Str) (kv : Str × Str) (l : List (Str × Str))
    (h : (kv.1 == k') = false) :
    ((kv :: l).find? fun x => x.1 == k') = l.find? fun x => x.1 == k' := by
  simp only [List.find?]
  rw [h]

lemma find?_mapSet (k v k' : Str) (h : (k' == k) = false) :
    ∀ d : Dict,
      ((d.map fun kv => if kv.1 == k then (kv.1, v) else kv).find? fun kv => kv.1 == k')
        = d.find? fun kv => kv.1 == k'
  | [] => rfl
  | kv :: rest => by
    by_cases hk : (kv.1 == k') = true
    · have h1 : kv.1 = k' := beq_iff_eq.mp hk
      have h2 : k' ≠ k := beq_eq_false_iff_ne.mp h
      have hne : (kv.1 == k) = false := beq_eq_false_iff_ne.mpr (h1 ▸ h2)
      have hfix : (if (kv.1 == k) = true then (kv.1, v) else kv) = kv := by
        rw [hne]; simp
      rw [List.map_cons, hfix, find?_key_cons_pos k' kv _ hk, find?_key_cons_pos k' kv rest hk]
    · have hk' : (kv.1 == k') = false := bool_eq_false_of_ne_true hk
      have hkeep : ((if (kv.1 == k) = true then (kv.1, v) else kv).1 == k') = false := by
        rw [dictSet_key_stable]; exact hk'
      rw [List.map_cons, find?_key_cons_neg k' _ _ hkeep, find?_key_cons_neg k' kv rest hk']
      exact find?_mapSet k v k' h rest

lemma find?_eq_none_of_not_contains (d : Dict) (k : Str)
    (h : dictContains d k = false) : (d.find? fun kv => kv.1 == k) = none := by
  induction d with
  | nil => rfl
  | cons kv rest ih =>
    have hk : (kv.1 == k) = false := by
      have := h
      simp only [dictContains, List.any_cons] at this
      revert this
      cases kv.1 == k <;> simp
    have h2 : dictContains rest k = false := by
      have := h
      simp only [dictContains, List.any_cons, hk, Bool.false_or] at this
      exact this
    rw [find?_key_cons_neg k kv rest hk]
    exact ih h2

lemma dictFind_dictSet_ne (d : Dict) (k v k' : Str) (h : (k' == k) = false) :
    dictFind (dictSet d k v) k' = dictFind d k' := by
  by_cases hc : dictContains d k = true
  · simp only [dictSet, hc, if_true, dictFind, find?_mapSet k v k' h d]
  · have hc' : dictContains d k = false := bool_eq_false_of_ne_true hc
    have hkk' : (k == k') = false :=
      beq_eq_false_iff_ne.mpr (Ne.symm (beq_eq_false_iff_ne.mp h))
    simp only [dictSet, hc', Bool.false_eq_true, if_false, dictFind, List.find?_append]
    rw [find?_key_cons_neg k' (k, v) [] hkk']
    simp [List.find?]

lemma dictFind_mapSet_self (k v : Str) :
    ∀ d : Dict, dictContains d k = true →
      Option.map (fun kv => kv.2)
          ((d.map fun kv => if kv.1 == k then (kv.1, v) else kv).find? fun kv => kv.1 == k)
        = some v
  | [] => by intro h; simp [dictContains] at h
  | kv :: rest => by
    intro h
    by_cases hk : (kv.1 == k) = true
    · have hfix : (if (kv.1 == k) = true then (kv.1, v) else kv) = (kv.1, v) := by
        rw [hk]; simp
      have hkey : (((kv.1, v) : Str × Str).1 == k) = true := hk
      rw [List.map_cons, hfix, find?_key_cons_pos k (kv.1, v) _ hkey]
      rfl
    · have hk' : (kv.1 == k) = false := bool_eq_false_of_ne_true hk
      have h2 : dictContains rest k = true := by
        simp only [dictContains, List.any_cons, hk', Bool.false_or] at h
        exact h
      have hkeep : ((if (kv.1 == k) = true then (kv.1, v) else kv).1 == k) = false := by
        rw [dictSet_key_stable]; exact hk'
      rw [List.map_cons, find?_key_cons_neg k _ _ hkeep]
      exact dictFind_mapSet_self k v rest h2

lemma dictFind_dictSet_self (d : Dict) (k v : Str) :
    dictFind (dictSet d k v) k = some v := by
  by_cases hc : dictContains d k = true
  · simp only [dictSet, hc, if_true, dictFind]
    exact dictFind_mapSet_self k v d hc
  · have hc' : dictContains d k = false := bool_eq_false_of_ne_true hc
    simp only [dictSet, hc', Bool.false_eq_true, if_false, dictFind, List.find?_append,
      find?_eq_none_of_not_contains d k hc']
    rw [find?_key_cons_pos k (k, v) [] (by simp)]
    rfl

lemma dictContains_of_dictFind (d : Dict) (k : Str) (v : Str)
    (h : dictFind d k = some v) : dictContains d k = true := by
  induction d with
  | nil => exact Option.noConfusion h
  | cons kv rest ih =>
    by_cases hk : (kv.1 == k) = true
    · simp [dictContains, List.any_cons, hk]
    · have hk' : (kv.1 == k) = false := bool_eq_false_of_ne_true hk
      rw [dictFind, find?_key_cons_neg k kv rest hk'] at h
      have := ih h
      simp only [dictContains, List.any_cons, hk', Bool.false_or]
      simp only [dictContains] at this
      exact this

/-- Filling defaults (the `for k, v in self.defaults.items()` loop of
`Template.evaluate`) preserves the binding of every key already present. -/
lemma dictFind_fill (ds : Dict) :
    ∀ (acc : Dict) (k : Str) (v : Str), dictFind acc k = some v →
      dictFind (ds.foldl (fun acc kv =>
          if dictContains acc kv.1 then acc else dictSet acc kv.1 kv.2) acc) k = some v := by
  induction ds with
  | nil => intro acc k v h; exact h
  | cons kv rest ih =>
    intro acc k v h
    by_cases hc : dictContains acc kv.1 = true
    · simp only [List.foldl_cons, hc, if_true]
      exact ih acc k v h
    · have hc' : dictContains acc kv.1 = false := bool_eq_false_of_ne_true hc
      have hkne : (k == kv.1) = false := by
        refine beq_eq_false_iff_ne.mpr ?_
        intro he
        rw [← he] at hc'
        rw [dictContains_of_dictFind acc k v h] at hc'
        exact Bool.noConfusion hc'
      simp only [List.foldl_cons, hc', Bool.false_eq_true, if_false]
      exact ih _ k v (by rw [dictFind_dictSet_ne _ _ _ _ hkne]; exact h)

/-! ### Claim theorems about the templates -/

/-- The final dict returned by `evaluate` is the effective parameter set, in
every branch. -/
lemma evaluate_snd (t : Template) (input : Str) (params : Option Dict) :
    (t.evaluate input params).2 = t.effectiveParams input params := by
  simp only [Template.evaluate]
  split
  · split <;> rfl
  · split
    · rfl
    · split <;> rfl

/-- A binding visible in the dict `interpolate` receives survives the
defaults-filling loop of `effectiveParams`. -/
lemma effectiveParams_find_some (t : Template) (input : Str) (ps : Dict) (k v : Str)
    (h : dictFind (dictSet ps "input".data input) k = some v) :
    dictFind (t.effectiveParams input (some ps)) k = some v := by
  simp only [Template.effectiveParams]
  cases t.defaults with
  | none => exact h
  | some ds =>
    by_cases hds : ds.isEmpty = true
    · simp only [hds, if_true]
      exact h
    · simp only [bool_eq_false_of_ne_true hds, Bool.false_eq_true, if_false]
      exact dictFind_fill ds _ k v h

/-- C4 counterexample: `evaluate` does not leave a caller-supplied non-empty
params mapping unchanged: `params["input"] = input` writes into the caller's
own dict (`params or` yields the same object when the dict is non-empty), so
after the call the dict holds an `"input"` binding it did not hold before. -/
theorem evaluate_params_mutation_counterexample :
    (tMut.evaluate "i".data (some [("a".data, "1".data)])).2
      ≠ [("a".data, "1".data)] := by decide

/-- C4 amended: `evaluate` is deterministic (a pure function of the template,
input and params), and its side effect on a caller-supplied non-empty params
dict is exactly to insert `input` under the key `"input"` and fill in absent
default keys: the final dict binds `"input"` to the input, and every caller
binding for another key survives unchanged. -/
theorem evaluate_deterministic_mutation (t : Template) (input : Str) (ps : Dict)
    (h : ps ≠ []) :
    dictFind (t.effectiveParams input (some ps)) "input".data = some input
    ∧ (∀ k v, (k == "input".data) = false → dictFind ps k = some v →
        dictFind (t.effectiveParams input (some ps)) k = some v)
    ∧ (t.evaluate input (some ps)).2 = t.effectiveParams input (some ps)
    ∧ t.evaluate input (some ps) = t.evaluate input (some ps) := by
  refine ⟨?_, ?_, evaluate_snd t input (some ps), rfl⟩
  · exact effectiveParams_find_some t input ps _ _ (dictFind_dictSet_self ps _ input)
  · intro k v hk hfind
    refine effectiveParams_find_some t input ps k v ?_
    rw [dictFind_dictSet_ne _ _ _ _ hk]
    exact hfind

theorem evaluate_deterministic_mutation_witness :
    dictFind (tMut.effectiveParams "i".data (some [("a".data, "1".data)])) "input".data
      = some "i".data :=
  (evaluate_deterministic_mutation tMut "i".data [("a".data, "1".data)] (by decide)).1

/-- C10: a braced `$\x7bname\x7d` placeholder (or an escaped `$$`) in a pattern
makes `extract_vars` yield a `None` entry for that match, so `interpolate`
raises `TypeError` while formatting the missing-variables message -- not
`MissingVariables` and not a successful substitution -- whatever the
parameter set binds (in particular even when the braced variable is bound). -/
theorem extract_vars_braced_escaped_typeError (s : Str) (d : Dict) (n : Str)
    (h : Tok.braced n ∈ tokenize s ∨ Tok.escaped ∈ tokenize s) :
    none ∈ extract_vars s ∧ interpolate (some s) d = .error .typeError := by
  have hmem : none ∈ extract_vars s := by
    cases h with
    | inl hb => exact List.mem_filterMap.mpr ⟨Tok.braced n, hb, rfl⟩
    | inr he => exact List.mem_filterMap.mpr ⟨Tok.escaped, he, rfl⟩
  refine ⟨hmem, ?_⟩
  have hs : s.isEmpty = false := by
    cases s with
    | nil =>
      exfalso
      cases h with
      | inl hb => exact absurd hb (by simp [tokenize, scan])
      | inr he => exact absurd he (by simp [tokenize, scan])
    | cons c cs => rfl
  have hmiss : none ∈ (extract_vars s).filter (missingPred d) :=
    List.mem_filter.mpr ⟨hmem, rfl⟩
  have hne : ((extract_vars s).filter (missingPred d)).isEmpty = false := by
    cases hfil : (extract_vars s).filter (missingPred d) with
    | nil => rw [hfil] at hmiss; exact absurd hmiss (List.not_mem_nil none)
    | cons a l => rfl
  have hany : ((extract_vars s).filter (missingPred d)).any (fun o => o.isNone) = true :=
    List.any_eq_true.mpr ⟨none, hmiss, rfl⟩
  simp only [interpolate, hs, Bool.false_eq_true, if_false, hne, hany, if_true]

theorem extract_vars_braced_typeError_witness :
    none ∈ extract_vars "$\x7bx\x7d".data
    ∧ interpolate (some "$\x7bx\x7d".data) [("x".data, "1".data)]
        = .error .typeError :=
  extract_vars_braced_escaped_typeError "$\x7bx\x7d".data
    [("x".data, "1".data)] "x".data (by decide)

/-! ### C3: the missing-variable enumeration of evaluate -/

lemma vars_isSome_of_allNamed (s : Str) (h : allNamed s = true) :
    ∀ o ∈ extract_vars s, o.isSome = true := by
  intro o ho
  obtain ⟨t, ht, hf⟩ := List.mem_filterMap.mp ho
  have hsimple := List.all_eq_true.mp h t ht
  cases t with
  | lit c => exact Option.noConfusion hf
  | named n =>
    have : some n = o := by simpa using hf
    rw [← this]
    rfl
  | escaped => exact Bool.noConfusion hsimple
  | braced n => exact Bool.noConfusion hsimple
  | invalid => exact Bool.noConfusion hsimple

lemma missingNames_eq_nil_iff (s : Str) (d : Dict) (h : allNamed s = true) :
    missingNames s d = [] ↔ (extract_vars s).filter (missingPred d) = [] := by
  constructor
  · intro he
    cases hfil : (extract_vars s).filter (missingPred d) with
    | nil => rfl
    | cons a l =>
      have ha : a ∈ (extract_vars s).filter (missingPred d) :=
        hfil ▸ List.mem_cons_self a l
      have hmem : a ∈ extract_vars s := (List.mem_filter.mp ha).1
      obtain ⟨n, rfl⟩ := Option.isSome_iff_exists.mp
        (vars_isSome_of_allNamed s h a hmem)
      rw [missingNames, hfil] at he
      simp [List.filterMap_cons] at he
  · intro he
    simp [missingNames, he]

lemma missing_no_none (s : Str) (d : Dict) (h : allNamed s = true) :
    ((extract_vars s).filter (missingPred d)).any (fun o => o.isNone) = false := by
  refine bool_eq_false_of_ne_true ?_
  intro hany
  obtain ⟨o, ho, hno⟩ := List.any_eq_true.mp hany
  have hsome := vars_isSome_of_allNamed s h o (List.mem_filter.mp ho).1
  cases o with
  | none => exact Bool.noConfusion hsome
  | some n => exact Bool.noConfusion hno

lemma dictFind_of_contains (d : Dict) (k : Str) (h : dictContains d k = true) :
    ∃ v, dictFind d k = some v := by
  induction d with
  | nil => simp [dictContains] at h
  | cons kv rest ih =>
    by_cases hk : (kv.1 == k) = true
    · exact ⟨kv.2, by rw [dictFind, find?_key_cons_pos k kv rest hk]; rfl⟩
    · have hk' := bool_eq_false_of_ne_true hk
      have h2 : dictContains rest k = true := by
        simp only [dictContains, List.any_cons, hk', Bool.false_or] at h
        exact h
      obtain ⟨v, hv⟩ := ih h2
      exact ⟨v, by rw [dictFind, find?_key_cons_neg k kv rest hk']; exact hv⟩

lemma bound_of_no_missing (s : Str) (d : Dict)
    (h : (extract_vars s).filter (missingPred d) = []) :
    ∀ n, Tok.named n ∈ tokenize s → dictContains d n = true := by
  intro n hn
  have hv : some n ∈ extract_vars s := List.mem_filterMap.mpr ⟨Tok.named n, hn, rfl⟩
  by_cases hc : dictContains d n = true
  · exact hc
  · have hc' := bool_eq_false_of_ne_true hc
    have : some n ∈ (extract_vars s).filter (missingPred d) :=
      List.mem_filter.mpr ⟨hv, by simp [missingPred, hc']⟩
    rw [h] at this
    exact absurd this (List.not_mem_nil _)

lemma substitute_ok_of_bound (d : Dict) :
    ∀ toks : List Tok,
      (∀ n, Tok.named n ∈ toks → dictContains d n = true) →
      (∀ t ∈ toks, tokSimple t = true) →
      ∃ out, substitute toks d = .ok out := by
  intro toks
  induction toks with
  | nil => intro _ _; exact ⟨[], rfl⟩
  | cons t ts ih =>
    intro hbound hshape
    obtain ⟨out, hout⟩ := ih (fun n hn => hbound n (List.mem_cons_of_mem t hn))
      (fun t' ht' => hshape t' (List.mem_cons_of_mem t ht'))
    cases t with
    | lit c => exact ⟨[c] ++ out, by simp [substitute, hout]⟩
    | named n =>
      obtain ⟨v, hv⟩ := dictFind_of_contains d n (hbound n (List.mem_cons_self _ _))
      exact ⟨v ++ out, by simp [substitute, hv, hout]⟩
    | escaped => exact Bool.noConfusion (hshape Tok.escaped (List.mem_cons_self _ _))
    | braced n => exact Bool.noConfusion (hshape (Tok.braced n) (List.mem_cons_self _ _))
    | invalid => exact Bool.noConfusion (hshape Tok.invalid (List.mem_cons_self _ _))

lemma interpolate_allNamed_spec (s : Str) (d : Dict) (hAll : allNamed s = true) :
    ((extract_vars s).filter (missingPred d) = [] →
        ∃ out, interpolate (some s) d = .ok (some out))
    ∧ ((extract_vars s).filter (missingPred d) ≠ [] →
        interpolate (some s) d
          = .error (.missingVariables (fmtMissing (missingNames s d)))) := by
  constructor
  · intro hm
    by_cases hs : s.isEmpty = true
    · exact ⟨s, by simp [interpolate, hs]⟩
    · have hs' := bool_eq_false_of_ne_true hs
      obtain ⟨out, hout⟩ := substitute_ok_of_bound d (tokenize s)
        (bound_of_no_missing s d hm) (List.all_eq_true.mp hAll)
      refine ⟨out, ?_⟩
      simp only [interpolate, hs', Bool.false_eq_true, if_false, hm,
        List.isEmpty_nil, if_true, hout]
  · intro hm
    have hs' : s.isEmpty = false := by
      cases s with
      | nil => exact absurd rfl hm
      | cons c cs => rfl
    have hne : ((extract_vars s).filter (missingPred d)).isEmpty = false := by
      cases hfil : (extract_vars s).filter (missingPred d) with
      | nil => exact absurd hfil hm
      | cons a l => rfl
    simp only [interpolate, hs', Bool.false_eq_true, if_false, hne,
      missing_no_none s d hAll, if_true, missingNames]

lemma interpolate_pattern_spec (o : Option Str) (d : Dict)
    (h : patternAllNamed o = true) :
    (missingNamesOf o d = [] → ∃ out, interpolate o d = .ok out)
    ∧ (missingNamesOf o d ≠ [] →
        interpolate o d = .error (.missingVariables (fmtMissing (missingNamesOf o d)))) := by
  cases o with
  | none => exact ⟨fun _ => ⟨none, rfl⟩, fun hm => absurd rfl hm⟩
  | some s =>
    by_cases hs : s.isEmpty = true
    · refine ⟨fun _ => ⟨some s, by simp [interpolate, hs]⟩, fun hm => ?_⟩
      exact absurd (by simp [missingNamesOf, hs]) hm
    · have hs' := bool_eq_false_of_ne_true hs
      have hAll : allNamed s = true := h
      have heq : missingNamesOf (some s) d = missingNames s d := by
        simp [missingNamesOf, hs']
      have hspec := interpolate_allNamed_spec s d hAll
      constructor
      · intro hm
        rw [heq] at hm
        obtain ⟨out, hout⟩ := hspec.1 ((missingNames_eq_nil_iff s d hAll).mp hm)
        exact ⟨some out, hout⟩
      · intro hm
        rw [heq] at hm ⊢
        refine hspec.2 ?_
        intro hfil
        exact hm ((missingNames_eq_nil_iff s d hAll).mpr hfil)

/-- C3 counterexample: for the template with prompt `"$a"` and system `"$q"`
and no bindings beyond the injected input, `evaluate` raises
`MissingVariables` with the message `"Missing variables: a"`: the variable
`q`, missing from the effective set for the system pattern, is not mentioned
(the character `q` does not even occur in the message), so the error does not
enumerate the missing names across both patterns. -/
theorem evaluate_cross_pattern_counterexample :
    (tCross.evaluate "i".data none).1
        = .error (.missingVariables "Missing variables: a".data)
    ∧ "q".data ∈ missingNamesOf tCross.system (tCross.effectiveParams "i".data none)
    ∧ ¬ ( 'q' ∈ "Missing variables: a".data) := by decide

/-- C3 amended: for a template whose patterns contain only simple `$name`
placeholders, `evaluate` either succeeds or raises `MissingVariables` whose
message enumerates, in occurrence order, every referenced variable missing
from the effective parameter set in one pattern: the prompt pattern when it is
truthy and has a missing variable, otherwise the system pattern.  The error is
raised by validating the pattern before substituting it, and an error leaves
no partial result: the failing call returns only the exception. -/
theorem evaluate_missing_enumeration (t : Template) (input : Str)
    (params : Option Dict) (hp : patternAllNamed t.prompt = true)
    (hs : patternAllNamed t.system = true) :
    (expectedMissing t input params = [] →
        ∃ r, (t.evaluate input params).1 = .ok r)
    ∧ (expectedMissing t input params ≠ [] →
        (t.evaluate input params).1
          = .error (.missingVariables (fmtMissing (expectedMissing t input params)))) := by
  have hPspec := interpolate_pattern_spec t.prompt (t.effectiveParams input params) hp
  have hSspec := interpolate_pattern_spec t.system (t.effectiveParams input params) hs
  by_cases htp : truthyStr t.prompt = false
  · have hexp : expectedMissing t input params
        = missingNamesOf t.system (t.effectiveParams input params) := by
      simp [expectedMissing, htp]
    constructor
    · intro hm
      rw [hexp] at hm
      obtain ⟨out, hout⟩ := hSspec.1 hm
      exact ⟨(some input, out), by simp only [Template.evaluate, htp, if_true, hout]⟩
    · intro hm
      rw [hexp] at hm ⊢
      have herr := hSspec.2 hm
      simp only [Template.evaluate, htp, if_true, herr]
  · have htp' : truthyStr t.prompt = true := by
      revert htp; cases truthyStr t.prompt <;> simp
    by_cases hpm : missingNamesOf t.prompt (t.effectiveParams input params) = []
    · have hexp : expectedMissing t input params
          = missingNamesOf t.system (t.effectiveParams input params) := by
        simp [expectedMissing, htp', hpm]
      obtain ⟨outp, houtp⟩ := hPspec.1 hpm
      constructor
      · intro hm
        rw [hexp] at hm
        obtain ⟨outs, houts⟩ := hSspec.1 hm
        exact ⟨(outp, outs),
          by simp only [Template.evaluate, htp', Bool.true_eq_false, if_false,
            houtp, houts]⟩
      · intro hm
        rw [hexp] at hm ⊢
        have herr := hSspec.2 hm
        simp only [Template.evaluate, htp', Bool.true_eq_false, if_false, houtp, herr]
    · have hexp : expectedMissing t input params
          = missingNamesOf t.prompt (t.effectiveParams input params) := by
        simp [expectedMissing, htp', hpm]
      have herr := hPspec.2 hpm
      constructor
      · intro hm
        rw [hexp] at hm
        exact absurd hm hpm
      · intro hm
        rw [hexp]
        simp only [Template.evaluate, htp', Bool.true_eq_false, if_false, herr]

theorem evaluate_missing_enumeration_witness :
    (tCross.evaluate "i".data none).1
      = .error (.missingVariables (fmtMissing (expectedMissing tCross "i".data none))) :=
  (evaluate_missing_enumeration tCross "i".data none (by decide) (by decide)).2
    (by decide)

lemma buildMessages_foldl (l : List LogRow) :
    ∀ init : List Message,
      l.foldl (fun msgs e => msgs ++ entryMessages e) init
        = init ++ l.flatMap entryMessages := by
  induction l with
  | nil => intro init; simp
  | cons e rest ih =>
    intro init
    simp only [List.foldl_cons, List.flatMap_cons, ih, List.append_assoc]

/-- C8: for every log table whose row ids are distinct (they are the SQLite
primary key) and every conversation identifier, the replayed history is in
strictly ascending id order, the message list is exactly the concatenation of
each entry's messages in that order, and the history contains exactly the
matching rows. -/
theorem get_history_ordered (table : List LogRow) (cid : Nat)
    (h : (table.map (fun r => r.id)).Nodup) :
    ((get_history table cid).map (fun r => r.id)).Sorted (· < ·)
    ∧ buildMessages (get_history table cid)
        = (get_history table cid).flatMap entryMessages
    ∧ (get_history table cid).Perm (table.filter (rowMatches cid)) := by
  haveI : IsTotal LogRow histLe := ⟨fun a b => Nat.le_total a.id b.id⟩
  haveI : IsTrans LogRow histLe := ⟨fun a b c hab hbc => Nat.le_trans hab hbc⟩
  have hperm : (get_history table cid).Perm (table.filter (rowMatches cid)) :=
    List.perm_insertionSort histLe (table.filter (rowMatches cid))
  refine ⟨?_, ?_, hperm⟩
  · have hsorted : (get_history table cid).Sorted histLe :=
      List.sorted_insertionSort histLe (table.filter (rowMatches cid))
    have hpw : List.Pairwise histLe (get_history table cid) := hsorted
    have hle : ((get_history table cid).map (fun r => r.id)).Pairwise (· ≤ ·) :=
      List.Pairwise.map (fun r : LogRow => r.id)
        (fun a b (hab : histLe a b) => hab) hpw
    have hnodupF : ((table.filter (rowMatches cid)).map (fun r => r.id)).Nodup :=
      List.Nodup.sublist (List.Sublist.map _ (List.filter_sublist table)) h
    have hnodup : ((get_history table cid).map (fun r => r.id)).Nodup :=
      (List.Perm.nodup_iff (hperm.map (fun r => r.id))).mpr hnodupF
    exact List.Pairwise.imp (fun hab => lt_of_le_of_ne hab.1 hab.2) (hle.and hnodup)
  · exact buildMessages_foldl (get_history table cid) []

theorem get_history_ordered_witness :
    (tableW.map (fun r => r.id)).Nodup
    ∧ (((get_history tableW 1).map (fun r => r.id)).Sorted (· < ·)
        ∧ buildMessages (get_history tableW 1)
            = (get_history tableW 1).flatMap entryMessages
        ∧ (get_history tableW 1).Perm (tableW.filter (rowMatches 1))) :=
  ⟨by decide, get_history_ordered tableW 1 (by decide)⟩

end LLM
